import Mathlib

/-!
Verification of the chess-engine move-selection core
(`movegeneration.py`, `evaluate.py`, `transposition_table.py`,
`opening_book.py`, `game_learner.py`).

The search functions are embedded over an abstract game interface: a
position type together with the per-position data the search actually
consumes from the external rules engine (ordered successor positions,
the capture successors, checkmate / game-over flags, the static
evaluation, the side to move, and the zobrist hash key).  Scores are
embedded as `WithBot (WithTop ℤ)`: the Python code computes integral
evaluations but uses `float("inf")` / `-float("inf")` sentinels, which
are `⊤` and `⊥` here.
-/

namespace ChessEngine

/-- Scores: integers extended with `-inf` (`⊥`) and `+inf` (`⊤`),
modelling the Python floats used by the search. -/
abbrev Score := WithBot (WithTop ℤ)

/-- Embeds an integer evaluation into `Score`. -/
def sc (n : ℤ) : Score := ((n : WithTop ℤ) : Score)

/-- Negation on `Score`, modelling Python unary minus on floats
(swapping the two infinities). -/
def sneg (x : Score) : Score :=
  WithBot.recBotCoe ⊤ (fun y => WithTop.recTopCoe ⊥ (fun n : ℤ => sc (-n)) y) x

/-- MATE_SCORE constant from `movegeneration.py` line 12. -/
def MATE_SCORE : ℤ := 1000000000

/-- MATE_THRESHOLD constant from `movegeneration.py` line 13 (defined in
the source but never read by the search). -/
def MATE_THRESHOLD : ℤ := 999000000

/-- Abstract interface to a game position, collecting exactly the data
the search in `movegeneration.py` obtains from the `chess` rules engine
and from `get_ordered_moves`.  Moves are identified with the positions
they lead to (`board.push(move)`), since the search only ever uses a
move by pushing it. -/
structure Game (Pos : Type) where
  /-- Successor positions of `board.legal_moves` in the order produced
  by `get_ordered_moves(board)`. -/
  orderedMoves : Pos → List Pos
  /-- Successor positions of the capturing legal moves, in
  `board.legal_moves` enumeration order (`quiescence_search` skips
  non-captures). -/
  captureMoves : Pos → List Pos
  /-- Result of `board.is_checkmate()`. -/
  isCheckmate : Pos → Bool
  /-- Result of `board.is_game_over()`. -/
  isGameOver : Pos → Bool
  /-- Result of `evaluate_board(board)` from `evaluate.py` (an integral
  value). -/
  evaluate : Pos → ℤ
  /-- Result of `board.turn` (`true` = White to move). -/
  turn : Pos → Bool
  /-- Result of `chess.polyglot.zobrist_hash(board)`. -/
  key : Pos → Nat

/-- Loop body of `quiescence_search` (`movegeneration.py` lines 59-75):
iterate over the capture successors, recursing with the negated and
swapped window, accumulating nodes, with beta cutoff. -/
def qloop (rec : Pos → Score → Score → Score × Nat) (beta : Score) :
    List Pos → Score → Nat → Score × Nat
  | [], alpha, nodes => (alpha, nodes)
  | c :: cs, alpha, nodes =>
    let r := rec c (sneg beta) (sneg alpha)
    let score := sneg r.1
    let nodes := nodes + r.2
    if beta ≤ score then (beta, nodes)
    else if alpha < score then qloop rec beta cs score nodes
    else qloop rec beta cs alpha nodes

/-- `quiescence_search(board, alpha, beta, depth)` from
`movegeneration.py` lines 28-75, returning `(evaluation, nodes)`.
The depth argument is placed first so that the recursion is structural
on it; the Python signature is `(board, alpha, beta, depth)`. -/
def quiescence_search (g : Game Pos) : Nat → Pos → Score → Score → Score × Nat
  | d, p, alpha, beta =>
    let stand_pat := sc (g.evaluate p)
    if g.isCheckmate p then
      ((if g.turn p then sc (-MATE_SCORE) else sc MATE_SCORE), 1)
    else
      match d with
      | 0 => (stand_pat, 1)
      | Nat.succ d' =>
        if beta ≤ stand_pat then (beta, 1)
        else
          let alpha' := if alpha < stand_pat then stand_pat else alpha
          qloop (fun c a b => quiescence_search g d' c a b) beta
            (g.captureMoves p) alpha' 1

/-- NodeType from `transposition_table.py` lines 7-11.  The source
comments label `ALPHA` an upper bound and `BETA` a lower bound;
`minimax` uses them the other way around (see the lookup gate below). -/
inductive NodeType
  | EXACT
  | ALPHA
  | BETA
deriving DecidableEq, Repr

/-- TableEntry from `transposition_table.py` lines 13-20.  `best_move`
is the successor position recorded for the entry. -/
structure TableEntry (Pos : Type) where
  depth : Nat
  score : Score
  node_type : NodeType
  best_move : Option Pos
  age : Nat
deriving DecidableEq, Repr

/-- Python dict assignment `table[key] = entry`: overwrite in place if
the key is present (keeping its position in insertion order, as Python
dicts do), else append at the end. -/
def assocSet (k : Nat) (e : TableEntry Pos) :
    List (Nat × TableEntry Pos) → List (Nat × TableEntry Pos)
  | [] => [(k, e)]
  | (k', e') :: rest =>
    if k' = k then (k, e) :: rest else (k', e') :: assocSet k e rest

/-- Python `table.get(key)`: first (only) binding of the key. -/
def assocGet (k : Nat) : List (Nat × TableEntry Pos) → Option (TableEntry Pos)
  | [] => none
  | (k', e') :: rest => if k' = k then some e' else assocGet k rest

/-- Python `del table[key]`: remove the binding of the key. -/
def assocDel (k : Nat) : List (Nat × TableEntry Pos) → List (Nat × TableEntry Pos)
  | [] => []
  | (k', e') :: rest =>
    if k' = k then rest else (k', e') :: assocDel k rest

/-- Python `min(table.keys(), key=lambda k: table[k].age)`: the first
binding (in insertion order) whose age is minimal. -/
def minAgePair : List (Nat × TableEntry Pos) → Option (Nat × TableEntry Pos)
  | [] => none
  | x :: rest =>
    match minAgePair rest with
    | none => some x
    | some y => if x.2.age ≤ y.2.age then some x else some y

/-- TranspositionTable state from `transposition_table.py` lines 22-37.
The Python dict is modelled as an insertion-ordered association list
with unique keys. -/
structure TranspositionTable (Pos : Type) where
  max_entries : Nat
  table : List (Nat × TableEntry Pos)
  hits : Nat
  misses : Nat
  collisions : Nat
  current_age : Nat
deriving Repr

/-- `TranspositionTable.__init__(size_mb)`: `max_entries` is the
megabyte budget divided by the 32-byte entry size estimate. -/
def TranspositionTable.init (size_mb : Nat) : TranspositionTable Pos :=
  { max_entries := size_mb * 1024 * 1024 / 32
    table := []
    hits := 0
    misses := 0
    collisions := 0
    current_age := 0 }

/-- `TranspositionTable.store` (`transposition_table.py` lines 39-69):
when the table is at capacity, first delete the oldest entry, then
write the new entry under the board's zobrist key. -/
def TranspositionTable.store (t : TranspositionTable Pos) (g : Game Pos)
    (board : Pos) (depth : Nat) (score : Score) (node_type : NodeType)
    (best_move : Option Pos := none) : TranspositionTable Pos :=
  let key := g.key board
  let t :=
    if t.max_entries ≤ t.table.length then
      match minAgePair t.table with
      | some oldest =>
        { t with table := assocDel oldest.1 t.table,
                 collisions := t.collisions + 1 }
      | none => t
    else t
  let e : TableEntry Pos :=
    { depth := depth, score := score, node_type := node_type,
      best_move := best_move, age := t.current_age }
  { t with table := assocSet key e t.table }

/-- `TranspositionTable.lookup` (`transposition_table.py` lines 71-91):
returns the entry for the board's key (refreshing its age and the hit
counter) or `none` (bumping the miss counter). -/
def TranspositionTable.lookup (t : TranspositionTable Pos) (g : Game Pos)
    (board : Pos) : Option (TableEntry Pos) × TranspositionTable Pos :=
  let key := g.key board
  match assocGet key t.table with
  | some e =>
    let e' := { e with age := t.current_age }
    (some e', { t with hits := t.hits + 1, table := assocSet key e' t.table })
  | none => (none, { t with misses := t.misses + 1 })

/-- `TranspositionTable.new_search` (`transposition_table.py` line 93-95). -/
def TranspositionTable.new_search (t : TranspositionTable Pos) :
    TranspositionTable Pos :=
  { t with current_age := t.current_age + 1 }

/-- `TranspositionTable.clear` (`transposition_table.py` lines 108-113). -/
def TranspositionTable.clear (t : TranspositionTable Pos) :
    TranspositionTable Pos :=
  { t with table := [], hits := 0, misses := 0, collisions := 0 }

/-- Early-return gate of `minimax` over a table entry
(`movegeneration.py` lines 156-163): a usable entry must have recorded
depth ≥ the requested depth; an `EXACT` entry returns its score, an
`ALPHA` entry with score ≤ alpha returns alpha, a `BETA` entry with
score ≥ beta returns beta. -/
def tt_probe (entry : Option (TableEntry Pos)) (depth : Nat)
    (alpha beta : Score) : Option Score :=
  match entry with
  | some e =>
    if depth ≤ e.depth then
      match e.node_type with
      | NodeType.EXACT => some e.score
      | NodeType.ALPHA => if e.score ≤ alpha then some alpha else none
      | NodeType.BETA => if beta ≤ e.score then some beta else none
    else none
  | none => none

/-- Maximizing move loop of `minimax` (`movegeneration.py` lines
189-200): recurse on each successor with the current window, track the
best score and move, raise alpha, and break as soon as beta ≤ alpha.
`beta` is never reassigned in this branch.  The table state is threaded
through the recursive calls. -/
def mloopMax (rec : Pos → Score → Score → TranspositionTable Pos →
      Score × TranspositionTable Pos) (beta : Score) :
    List Pos → Score → Score → Option Pos → TranspositionTable Pos →
      Score × Option Pos × TranspositionTable Pos
  | [], _, best_score, best_move, t => (best_score, best_move, t)
  | c :: cs, alpha, best_score, best_move, t =>
    let r := rec c alpha beta t
    let score := r.1
    let t := r.2
    let bs := if best_score < score then score else best_score
    let bm := if best_score < score then some c else best_move
    let alpha := max alpha score
    if beta ≤ alpha then (bs, bm, t)
    else mloopMax rec beta cs alpha bs bm t

/-- Minimizing move loop of `minimax` (`movegeneration.py` lines
211-222): lower beta, break as soon as beta ≤ alpha.  `alpha` is never
reassigned in this branch.  The final (lowered) beta is returned as
well, because the bound-type classification at lines 225-230 reads the
updated beta. -/
def mloopMin (rec : Pos → Score → Score → TranspositionTable Pos →
      Score × TranspositionTable Pos) (alpha : Score) :
    List Pos → Score → Score → Option Pos → TranspositionTable Pos →
      Score × Option Pos × Score × TranspositionTable Pos
  | [], beta, best_score, best_move, t => (best_score, best_move, beta, t)
  | c :: cs, beta, best_score, best_move, t =>
    let r := rec c alpha beta t
    let score := r.1
    let t := r.2
    let bs := if score < best_score then score else best_score
    let bm := if score < best_score then some c else best_move
    let beta := min beta score
    if beta ≤ alpha then (bs, bm, beta, t)
    else mloopMin rec alpha cs beta bs bm t

/-- `minimax(depth, board, alpha, beta, is_maximising_player)` from
`movegeneration.py` lines 151-234, with the global transposition table
`tt` made an explicit argument and returned alongside the score.  The
depth argument is placed first so that the recursion is structural on
it; the Python signature is `(depth, board, alpha, beta,
is_maximising_player)`. -/
def minimax [DecidableEq Pos] (g : Game Pos) :
    Nat → Pos → Score → Score → Bool → TranspositionTable Pos →
      Score × TranspositionTable Pos
  | depth, board, alpha, beta, is_maximising_player, t =>
    let lk := t.lookup g board
    let tt_entry := lk.1
    let t := lk.2
    match tt_probe tt_entry depth alpha beta with
    | some s => (s, t)
    | none =>
      if g.isCheckmate board then
        ((if is_maximising_player then sc (-MATE_SCORE) else sc MATE_SCORE), t)
      else if g.isGameOver board then (sc 0, t)
      else
        match depth with
        | 0 =>
          let score := sc (g.evaluate board)
          (score, t.store g board 0 score NodeType.EXACT)
        | Nat.succ d' =>
          let original_alpha := alpha
          let moves0 := g.orderedMoves board
          let moves :=
            match tt_entry with
            | some e =>
              match e.best_move with
              | some m => if m ∈ moves0 then m :: moves0.erase m else moves0
              | none => moves0
            | none => moves0
          if is_maximising_player then
            let r := mloopMax (fun c a b t => minimax g d' c a b false t)
              beta moves alpha ⊥ none t
            let best_score := r.1
            let best_move := r.2.1
            let t := r.2.2
            let node_type :=
              if best_score ≤ original_alpha then NodeType.BETA
              else if beta ≤ best_score then NodeType.ALPHA
              else NodeType.EXACT
            (best_score, t.store g board depth best_score node_type best_move)
          else
            let r := mloopMin (fun c a b t => minimax g d' c a b true t)
              alpha moves beta ⊤ none t
            let best_score := r.1
            let best_move := r.2.1
            let beta := r.2.2.1
            let t := r.2.2.2
            let node_type :=
              if best_score ≤ original_alpha then NodeType.BETA
              else if beta ≤ best_score then NodeType.ALPHA
              else NodeType.EXACT
            (best_score, t.store g board depth best_score node_type best_move)

/-- Maximizing move loop of `minimax` with the transposition-table code
removed; otherwise identical to `mloopMax`. -/
def abMaxLoop (rec : Pos → Score → Score) (beta : Score) :
    List Pos → Score → Score → Score
  | [], _, best_score => best_score
  | c :: cs, alpha, best_score =>
    let score := rec c alpha
    let bs := max best_score score
    let alpha := max alpha score
    if beta ≤ alpha then bs else abMaxLoop rec beta cs alpha bs

/-- Minimizing move loop of `minimax` with the transposition-table code
removed; otherwise identical to `mloopMin`. -/
def abMinLoop (rec : Pos → Score → Score) (alpha : Score) :
    List Pos → Score → Score → Score
  | [], _, best_score => best_score
  | c :: cs, beta, best_score =>
    let score := rec c beta
    let bs := min best_score score
    let beta := min beta score
    if beta ≤ alpha then bs else abMinLoop rec alpha cs beta bs

/-- `minimax` with all transposition-table interaction removed (the
lookup gate, the TT-move reordering and the stores): the pure
alpha-beta pruned search over the same leaf evaluation and terminal
handling.  The score computation is otherwise line for line that of
`minimax`. -/
def minimaxNoTT (g : Game Pos) : Nat → Pos → Score → Score → Bool → Score
  | depth, board, alpha, beta, is_maximising_player =>
    if g.isCheckmate board then
      (if is_maximising_player then sc (-MATE_SCORE) else sc MATE_SCORE)
    else if g.isGameOver board then sc 0
    else
      match depth with
      | 0 => sc (g.evaluate board)
      | Nat.succ d' =>
        if is_maximising_player then
          abMaxLoop (fun c a => minimaxNoTT g d' c a beta false) beta
            (g.orderedMoves board) alpha ⊥
        else
          abMinLoop (fun c b => minimaxNoTT g d' c alpha b true) alpha
            (g.orderedMoves board) beta ⊤

/-- Maximum of the values of a list of positions (with `⊥` for the
empty list). -/
def maxChild (f : Pos → Score) : List Pos → Score
  | [] => ⊥
  | c :: cs => max (f c) (maxChild f cs)

/-- Minimum of the values of a list of positions (with `⊤` for the
empty list). -/
def minChild (f : Pos → Score) : List Pos → Score
  | [] => ⊤
  | c :: cs => min (f c) (minChild f cs)

/-- Modelled from the spec: the unpruned plain minimax over the same
static evaluator and the same terminal handling, against which the
alpha-beta search is compared ("Alpha-beta result must equal unpruned
minimax result for the same depth").  No window, no pruning, no
transposition table: each node simply takes the max (resp. min) of its
children's values. -/
def plain_minimax (g : Game Pos) : Nat → Pos → Bool → Score
  | depth, board, is_maximising_player =>
    if g.isCheckmate board then
      (if is_maximising_player then sc (-MATE_SCORE) else sc MATE_SCORE)
    else if g.isGameOver board then sc 0
    else
      match depth with
      | 0 => sc (g.evaluate board)
      | Nat.succ d' =>
        if is_maximising_player then
          maxChild (fun c => plain_minimax g d' c false) (g.orderedMoves board)
        else
          minChild (fun c => plain_minimax g d' c true) (g.orderedMoves board)

/-- `next_move(depth, board)` from `movegeneration.py` lines 78-105,
with its three move sources abstracted to their results on the given
board: `book_move` is `book.get_book_move(board)`, `learned_move` is
`learner.get_move_suggestion(board)` and `search_move` is
`minimax_root(depth, board)`.  The function returns the book move when
there is one, otherwise the learned move when there is one, otherwise
the search move. -/
def next_move (book_move : Option μ) (learned_move : Option μ)
    (search_move : μ) : μ :=
  match book_move with
  | some m => m
  | none =>
    match learned_move with
    | some m => m
    | none => search_move

/-- Piece kinds of `python-chess` (`chess.PAWN` … `chess.KING`). -/
inductive PieceType
  | pawn
  | knight
  | bishop
  | rook
  | queen
  | king
deriving DecidableEq, Repr

/-- Piece value plus color (`true` = `chess.WHITE`). -/
structure Piece where
  piece_type : PieceType
  color : Bool
deriving DecidableEq, Repr

/-- `piece_values` map from `evaluate.py` lines 8-15. -/
def piece_values : PieceType → ℤ
  | .pawn => 100
  | .rook => 500
  | .knight => 320
  | .bishop => 330
  | .queen => 900
  | .king => 20000

/-- `pawnEvalWhite` piece-square table, `evaluate.py` lines 32-41. -/
def pawnEvalWhite : List ℤ :=
  [0, 0, 0, 0, 0, 0, 0, 0,
   5, 10, 10, -20, -20, 10, 10, 5,
   5, -5, -10, 0, 0, -10, -5, 5,
   0, 0, 0, 20, 20, 0, 0, 0,
   5, 5, 10, 25, 25, 10, 5, 5,
   10, 10, 20, 30, 30, 20, 10, 10,
   50, 50, 50, 50, 50, 50, 50, 50,
   0, 0, 0, 0, 0, 0, 0, 0]

/-- `pawnEvalBlack = list(reversed(pawnEvalWhite))`, `evaluate.py` line 42. -/
def pawnEvalBlack : List ℤ := pawnEvalWhite.reverse

/-- `knightEval` piece-square table, `evaluate.py` lines 46-55. -/
def knightEval : List ℤ :=
  [-50, -40, -30, -30, -30, -30, -40, -50,
   -40, -20, 0, 0, 0, 0, -20, -40,
   -30, 0, 10, 15, 15, 10, 0, -30,
   -30, 5, 15, 20, 20, 15, 5, -30,
   -30, 0, 15, 20, 20, 15, 0, -30,
   -30, 5, 10, 15, 15, 10, 5, -30,
   -40, -20, 0, 5, 5, 0, -20, -40,
   -50, -40, -30, -30, -30, -30, -40, -50]

/-- `bishopEvalWhite` piece-square table, `evaluate.py` lines 59-68. -/
def bishopEvalWhite : List ℤ :=
  [-20, -10, -10, -10, -10, -10, -10, -20,
   -10, 5, 0, 0, 0, 0, 5, -10,
   -10, 10, 10, 10, 10, 10, 10, -10,
   -10, 0, 10, 10, 10, 10, 0, -10,
   -10, 5, 5, 10, 10, 5, 5, -10,
   -10, 0, 5, 10, 10, 5, 0, -10,
   -10, 0, 0, 0, 0, 0, 0, -10,
   -20, -10, -10, -10, -10, -10, -10, -20]

/-- `bishopEvalBlack`, `evaluate.py` line 69. -/
def bishopEvalBlack : List ℤ := bishopEvalWhite.reverse

/-- `rookEvalWhite` piece-square table, `evaluate.py` lines 73-82. -/
def rookEvalWhite : List ℤ :=
  [0, 0, 0, 5, 5, 0, 0, 0,
   -5, 0, 0, 0, 0, 0, 0, -5,
   -5, 0, 0, 0, 0, 0, 0, -5,
   -5, 0, 0, 0, 0, 0, 0, -5,
   -5, 0, 0, 0, 0, 0, 0, -5,
   -5, 0, 0, 0, 0, 0, 0, -5,
   5, 10, 10, 10, 10, 10, 10, 5,
   0, 0, 0, 0, 0, 0, 0, 0]

/-- `rookEvalBlack`, `evaluate.py` line 83. -/
def rookEvalBlack : List ℤ := rookEvalWhite.reverse

/-- `queenEval` piece-square table, `evaluate.py` lines 87-96. -/
def queenEval : List ℤ :=
  [-20, -10, -10, -5, -5, -10, -10, -20,
   -10, 0, 0, 0, 0, 0, 0, -10,
   -10, 0, 5, 5, 5, 5, 0, -10,
   -5, 0, 5, 5, 5, 5, 0, -5,
   0, 0, 5, 5, 5, 5, 0, -5,
   -10, 5, 5, 5, 5, 5, 0, -10,
   -10, 0, 5, 0, 0, 0, 0, -10,
   -20, -10, -10, -5, -5, -10, -10, -20]

/-- `kingEvalWhite` piece-square table, `evaluate.py` lines 100-109. -/
def kingEvalWhite : List ℤ :=
  [20, 30, 10, 0, 0, 10, 30, 20,
   20, 20, 0, 0, 0, 0, 20, 20,
   -10, -20, -20, -20, -20, -20, -20, -10,
   20, -30, -30, -40, -40, -30, -30, -20,
   -30, -40, -40, -50, -50, -40, -40, -30,
   -30, -40, -40, -50, -50, -40, -40, -30,
   -30, -40, -40, -50, -50, -40, -40, -30,
   -30, -40, -40, -50, -50, -40, -40, -30]

/-- `kingEvalBlack`, `evaluate.py` line 110. -/
def kingEvalBlack : List ℤ := kingEvalWhite.reverse

/-- `kingEvalEndGameWhite` piece-square table, `evaluate.py` lines 114-123. -/
def kingEvalEndGameWhite : List ℤ :=
  [50, -30, -30, -30, -30, -30, -30, -50,
   -30, -30, 0, 0, 0, 0, -30, -30,
   -30, -10, 20, 30, 30, 20, -10, -30,
   -30, -10, 30, 40, 40, 30, -10, -30,
   -30, -10, 30, 40, 40, 30, -10, -30,
   -30, -10, 20, 30, 30, 20, -10, -30,
   -30, -20, -10, 0, 0, -10, -20, -30,
   -50, -40, -30, -20, -20, -30, -40, -50]

/-- `kingEvalEndGameBlack`, `evaluate.py` line 124. -/
def kingEvalEndGameBlack : List ℤ := kingEvalEndGameWhite.reverse

/-- Move value of `python-chess`: origin square, destination square and
optional promotion piece. -/
structure ChessMove where
  from_square : Fin 64
  to_square : Fin 64
  promotion : Option PieceType
deriving DecidableEq, Repr

/-- Board-level interface: the side to move, the piece lookup by
square, and the rules-engine predicates `evaluate.py` and
`movegeneration.py` consume (`board.legal_moves` enumeration order,
`board.is_capture`, `board.is_en_passant`). -/
structure ChessBoard where
  turn : Bool
  piece_at : Fin 64 → Option Piece
  legal_moves : List ChessMove
  is_capture : ChessMove → Bool
  is_en_passant : ChessMove → Bool

/-- `evaluate_piece(piece, square, end_game)` from `evaluate.py` lines
177-201: select the piece-square table (White tables are read
row-reversed for Black; the king switches to the endgame table) and
read it at the square index. -/
def evaluate_piece (piece : Piece) (square : Fin 64) (end_game : Bool) : ℤ :=
  let mapping : List ℤ :=
    match piece.piece_type with
    | .pawn => if piece.color then pawnEvalWhite else pawnEvalBlack
    | .knight => knightEval
    | .bishop => if piece.color then bishopEvalWhite else bishopEvalBlack
    | .rook => if piece.color then rookEvalWhite else rookEvalBlack
    | .queen => queenEval
    | .king =>
      if end_game then
        (if piece.color then kingEvalEndGameWhite else kingEvalEndGameBlack)
      else (if piece.color then kingEvalWhite else kingEvalBlack)
  mapping.getD square.val 0

/-- `check_end_game(board)` from `evaluate.py` lines 228-250: count the
queens and the minor pieces over all 64 squares (both colors pooled
together) and declare endgame when `queens == 0 or (queens == 2 and
minors <= 1)`. -/
def check_end_game (board : ChessBoard) : Bool :=
  let counts := (List.finRange 64).foldl
    (fun (qm : Nat × Nat) square =>
      match board.piece_at square with
      | some piece =>
        ((if piece.piece_type = PieceType.queen then qm.1 + 1 else qm.1),
         (if piece.piece_type = PieceType.bishop ∨
             piece.piece_type = PieceType.knight then qm.2 + 1 else qm.2))
      | none => qm) (0, 0)
  decide (counts.1 = 0 ∨ (counts.1 = 2 ∧ counts.2 ≤ 1))

/-- Modelled from the spec: number of pieces of the given kind and
color on the board, for the per-side endgame predicate ("every side
with a queen has at most one minor piece"). -/
def countPieces (board : ChessBoard) (t : PieceType) (c : Bool) : Nat :=
  ((List.finRange 64).filter (fun square =>
    match board.piece_at square with
    | some piece => piece.piece_type == t && piece.color == c
    | none => false)).length

/-- Modelled from the spec: "the position is endgame if no side has a
queen, or every side with a queen has at most one minor piece" (minor
pieces — bishops and knights — counted per side). -/
def end_game_spec (board : ChessBoard) : Bool :=
  decide ((countPieces board PieceType.queen true = 0 ∧
           countPieces board PieceType.queen false = 0) ∨
    (∀ c : Bool, 0 < countPieces board PieceType.queen c →
      countPieces board PieceType.bishop c + countPieces board PieceType.knight c ≤ 1))

/-- `evaluate_capture(board, move)` from `evaluate.py` lines 160-172:
captured piece value minus capturing piece value (a pawn for en
passant); `none` models the `Exception` raised when either square is
empty. -/
def evaluate_capture (board : ChessBoard) (move : ChessMove) : Option ℤ :=
  if board.is_en_passant move then some (piece_values PieceType.pawn)
  else
    match board.piece_at move.to_square, board.piece_at move.from_square with
    | some t, some f => some (piece_values t.piece_type - piece_values f.piece_type)
    | _, _ => none

/-- `move_value(board, move, endgame)` from `evaluate.py` lines
129-156: promotions get the extreme value in the mover's favor
(`-float("inf")` when Black is to move, `+float("inf")` otherwise);
other moves are scored by capture value plus piece-square delta,
negated for Black; `none` models the `Exception` when no piece stands
on the origin square. -/
def move_value (board : ChessBoard) (move : ChessMove) (endgame : Bool) :
    Option Score :=
  if move.promotion.isSome then
    some (if board.turn = false then (⊥ : Score) else ⊤)
  else
    match board.piece_at move.from_square with
    | none => none
    | some piece =>
      let from_value := evaluate_piece piece move.from_square endgame
      let to_value := evaluate_piece piece move.to_square endgame
      let position_change := to_value - from_value
      let capture_value : Option ℤ :=
        if board.is_capture move then evaluate_capture board move else some 0
      match capture_value with
      | none => none
      | some cv =>
        let current_move_value := cv + position_change
        some (sc (if board.turn = false then -current_move_value
                  else current_move_value))

/-- Decorates each legal move with its `move_value` key; `none` as soon
as `move_value` raises on some move (in which case the Python `sorted`
call would propagate the exception). -/
def keyedMoves (board : ChessBoard) (end_game : Bool) :
    List ChessMove → Option (List (ChessMove × Score))
  | [] => some []
  | m :: ms =>
    match move_value board m end_game, keyedMoves board end_game ms with
    | some v, some rest => some ((m, v) :: rest)
    | _, _ => none

/-- Sort relation of `sorted(board.legal_moves, key=orderer,
reverse=(board.turn == chess.WHITE))`: keys descending for White,
ascending for Black. -/
def orderRel : Bool → ChessMove × Score → ChessMove × Score → Prop
  | true, x, y => y.2 ≤ x.2
  | false, x, y => x.2 ≤ y.2

instance : (white : Bool) → DecidableRel (orderRel white)
  | true => fun x y => inferInstanceAs (Decidable (y.2 ≤ x.2))
  | false => fun x y => inferInstanceAs (Decidable (x.2 ≤ y.2))

instance : (white : Bool) → IsTotal (ChessMove × Score) (orderRel white)
  | true => ⟨fun x y => le_total y.2 x.2⟩
  | false => ⟨fun x y => le_total x.2 y.2⟩

instance : (white : Bool) → IsTrans (ChessMove × Score) (orderRel white)
  | true => ⟨fun _ _ _ h h' => le_trans h' h⟩
  | false => ⟨fun _ _ _ h h' => le_trans h h'⟩

/-- `get_ordered_moves(board)` from `movegeneration.py` lines 107-121:
sort the legal moves by `move_value`, best first for the side to move
(Python's `sorted` with a key function is modelled by decorating with
the key, stably insertion-sorting, and projecting). -/
def get_ordered_moves (board : ChessBoard) : Option (List ChessMove) :=
  let end_game := check_end_game board
  match keyedMoves board end_game board.legal_moves with
  | some keyed =>
    some ((List.insertionSort (orderRel board.turn) keyed).map Prod.fst)
  | none => none

/-- File-system view the opening book constructor consumes:
`os.path.exists(book_path)` and the result of
`chess.polyglot.open_reader(book_path)` (`none` when the call raises). -/
structure BookFS (R : Type) where
  pathExists : Bool
  openReader : Option R

/-- OpeningBook state from `opening_book.py`: the `enabled` flag and the
polyglot reader when one was opened. -/
structure OpeningBook (R : Type) where
  enabled : Bool
  reader : Option R

/-- `OpeningBook.__init__` (`opening_book.py` lines 9-37): `enabled`
starts `False` and is set to `True` only when the book file exists and
opens; a missing file or a raised exception leaves the book disabled
(the exception is caught, so construction always returns a book). -/
def OpeningBook.init (fs : BookFS R) : OpeningBook R :=
  if fs.pathExists then
    match fs.openReader with
    | some r => { enabled := true, reader := some r }
    | none => { enabled := false, reader := none }
  else { enabled := false, reader := none }

/-- Weighted selection loop of `get_book_move` (`opening_book.py` lines
70-74): walk the entries accumulating weights and return the first move
whose running total exceeds `choice`. -/
def pickWeighted (choice : Nat) : List (μ × Nat) → Nat → Option μ
  | [], _ => none
  | (m, w) :: rest, current_weight =>
    let current_weight := current_weight + w
    if choice < current_weight then some m else pickWeighted choice rest current_weight

/-- `OpeningBook.get_book_move` (`opening_book.py` lines 39-84) with the
external effects as oracles: `find_all` is `self._reader.find_all(board)`
on the current board, returning the `(move, weight)` entries (`none`
when it raises — the exception is caught and `None` returned);
`choice` is `random.randint(0, total_weight - 1)` and `rand_index`
selects `random.choice` for the unweighted branch.  A disabled book
returns `None` unconditionally. -/
def OpeningBook.get_book_move (b : OpeningBook R)
    (find_all : R → Option (List (μ × Nat))) (choice : Nat) (rand_index : Nat)
    (weighted : Bool := true) (min_weight : Nat := 10) : Option μ :=
  if b.enabled = false then none
  else
    match b.reader with
    | none => none
    | some r =>
      match find_all r with
      | none => none
      | some entries =>
        let valid_entries := entries.filter (fun e => min_weight ≤ e.2)
        if valid_entries.isEmpty then none
        else if weighted then pickWeighted choice valid_entries 0
        else (valid_entries.get? rand_index).map Prod.fst

/-- Transposition-table operations a client can perform
(`store`, `lookup`, `new_search`, `clear`). -/
inductive TTOp (Pos : Type) where
  | storeOp (board : Pos) (depth : Nat) (score : Score) (node_type : NodeType)
      (best_move : Option Pos)
  | lookupOp (board : Pos)
  | newSearchOp
  | clearOp

/-- Runs a sequence of table operations, threading the table state. -/
def runOps (g : Game Pos) : TranspositionTable Pos → List (TTOp Pos) →
    TranspositionTable Pos
  | t, [] => t
  | t, op :: ops =>
    let t' :=
      match op with
      | .storeOp b d s nt m => t.store g b d s nt m
      | .lookupOp b => (t.lookup g b).2
      | .newSearchOp => t.new_search
      | .clearOp => t.clear
    runOps g t' ops

/-- Trivial one-position game used to instantiate table theorems. -/
def unitGame : Game Unit where
  orderedMoves := fun _ => []
  captureMoves := fun _ => []
  isCheckmate := fun _ => false
  isGameOver := fun _ => false
  evaluate := fun _ => 0
  turn := fun _ => true
  key := fun _ => 0

/-- Positions of a two-node concrete game: `A` (White to move, static
evaluation 0) has a single legal move, a capture, leading to `B`
(static evaluation -500).  It abstracts a chess position with one
pending winning capture. -/
inductive PosC1
  | A
  | B
deriving DecidableEq, Repr

/-- Concrete game on `PosC1`. -/
def gC1 : Game PosC1 where
  orderedMoves := fun p => match p with | .A => [.B] | .B => []
  captureMoves := fun p => match p with | .A => [.B] | .B => []
  isCheckmate := fun _ => false
  isGameOver := fun _ => false
  evaluate := fun p => match p with | .A => 0 | .B => -500
  turn := fun _ => true
  key := fun p => match p with | .A => 0 | .B => 1

/-- Positions of a concrete game holding a transposition: `X` is
reached both directly under `A` (searched at remaining depth 2) and at
the end of the longer line `B - C - E` (requested at remaining depth
0).  `X` statically evaluates to 100 but its depth-2 search value is 0
(its forced line ends in `Z` with evaluation 0). -/
inductive PosC2
  | R
  | A
  | X
  | Y
  | Z
  | B
  | C
  | E
deriving DecidableEq, Repr

/-- Concrete game on `PosC2` (all keys distinct, no captures, no
terminal positions within the searched horizon). -/
def gC2 : Game PosC2 where
  orderedMoves := fun p =>
    match p with
    | .R => [.A, .B]
    | .A => [.X]
    | .X => [.Y]
    | .Y => [.Z]
    | .Z => []
    | .B => [.C]
    | .C => [.E]
    | .E => [.X]
  captureMoves := fun _ => []
  isCheckmate := fun _ => false
  isGameOver := fun _ => false
  evaluate := fun p => match p with | .X => 100 | _ => 0
  turn := fun _ => true
  key := fun p =>
    match p with
    | .R => 0
    | .A => 1
    | .X => 2
    | .Y => 3
    | .Z => 4
    | .B => 5
    | .C => 6
    | .E => 7

/-- Positions of a concrete game with two roots: from `R1` the
maximizing player mates in one ply (`K1` is checkmate); from `R3` the
mate takes three plies (`B1`, `B2`, then checkmate at `K3`). -/
inductive PosC3
  | R1
  | K1
  | R3
  | B1
  | B2
  | K3
deriving DecidableEq, Repr

/-- Concrete game on `PosC3`. -/
def gC3 : Game PosC3 where
  orderedMoves := fun p =>
    match p with
    | .R1 => [.K1]
    | .R3 => [.B1]
    | .B1 => [.B2]
    | .B2 => [.K3]
    | _ => []
  captureMoves := fun _ => []
  isCheckmate := fun p => match p with | .K1 => true | .K3 => true | _ => false
  isGameOver := fun p => match p with | .K1 => true | .K3 => true | _ => false
  evaluate := fun _ => 0
  turn := fun _ => true
  key := fun p =>
    match p with
    | .R1 => 0
    | .K1 => 1
    | .R3 => 2
    | .B1 => 3
    | .B2 => 4
    | .K3 => 5

/-- One-position game whose only position is checkmate (White to move,
checkmated), with static evaluation 0 and no capture moves. -/
def gC7 : Game Unit where
  orderedMoves := fun _ => []
  captureMoves := fun _ => []
  isCheckmate := fun _ => true
  isGameOver := fun _ => true
  evaluate := fun _ => 0
  turn := fun _ => true
  key := fun _ => 0

/-- Board with a lone white queen on a1 and the two kings (e1, e8):
exactly one queen on the board and no minor pieces. -/
def b4 : ChessBoard where
  turn := true
  piece_at := fun square =>
    if square.val = 0 then some ⟨PieceType.queen, true⟩
    else if square.val = 4 then some ⟨PieceType.king, true⟩
    else if square.val = 60 then some ⟨PieceType.king, false⟩
    else none
  legal_moves := []
  is_capture := fun _ => false
  is_en_passant := fun _ => false

/-- Quiet white pawn push a2-a3 (no promotion). -/
def mvQuiet : ChessMove := ⟨⟨8, by decide⟩, ⟨16, by decide⟩, none⟩

/-- White pawn promotion a7-a8=Q. -/
def mvPromo : ChessMove := ⟨⟨48, by decide⟩, ⟨56, by decide⟩, some PieceType.queen⟩

/-- Board with White to move, pawns on a2 and a7, whose two legal moves
are the quiet push `mvQuiet` (enumerated first) and the promotion
`mvPromo`. -/
def bW : ChessBoard where
  turn := true
  piece_at := fun square =>
    if square.val = 8 then some ⟨PieceType.pawn, true⟩
    else if square.val = 48 then some ⟨PieceType.pawn, true⟩
    else none
  legal_moves := [mvQuiet, mvPromo]
  is_capture := fun _ => false
  is_en_passant := fun _ => false

theorem sc_ne_top (n : ℤ) : sc n ≠ ⊤ := by
  intro h
  exact WithTop.coe_ne_top (WithBot.coe_inj.mp h)

theorem sc_ne_bot (n : ℤ) : sc n ≠ ⊥ := WithBot.coe_ne_bot

theorem bot_lt_sc (n : ℤ) : (⊥ : Score) < sc n := WithBot.bot_lt_coe _

theorem sc_lt_top (n : ℤ) : sc n < ⊤ :=
  lt_top_iff_ne_top.mpr (sc_ne_top n)

/-- C1: the spec says a depth-zero non-terminal leaf of the recursive
search defers to quiescence search rather than returning the static
evaluation directly; the code returns `evaluate_board(board)` at depth
zero and never calls `quiescence_search`.  At the concrete position `A`
(one pending winning capture) depth-zero `minimax` returns the static
evaluation 0, while `quiescence_search` with the same full window
returns 500. -/
theorem c1_depth_zero_static_eval :
    (minimax gC1 0 PosC1.A ⊥ ⊤ true (TranspositionTable.init 64)).1
        = sc (gC1.evaluate PosC1.A)
    ∧ (quiescence_search gC1 4 PosC1.A ⊥ ⊤).1 = sc 500
    ∧ sc (gC1.evaluate PosC1.A) ≠ sc 500 := by
  decide

/-- C3 (amended): the search applies no mate-distance correction:
`minimax` returns the full `±MATE_SCORE` at every checkmate position
regardless of the remaining depth (and hence of the ply distance at
which the mate is found), so mates at different distances receive
scores of equal magnitude. -/
theorem c3_mate_score_constant {Pos : Type} [DecidableEq Pos] (g : Game Pos)
    (d : Nat) (p : Pos) (alpha beta : Score) (maxing : Bool) (size_mb : Nat)
    (h : g.isCheckmate p = true) :
    (minimax g d p alpha beta maxing (TranspositionTable.init size_mb)).1
      = (if maxing then sc (-MATE_SCORE) else sc MATE_SCORE) := by
  unfold minimax
  simp [TranspositionTable.lookup, TranspositionTable.init, assocGet, tt_probe, h]

theorem c3_mate_score_constant_witness :
    gC3.isCheckmate PosC3.K1 = true
    ∧ (minimax gC3 7 PosC3.K1 ⊥ ⊤ false (TranspositionTable.init 64)).1
        = sc MATE_SCORE :=
  ⟨rfl, c3_mate_score_constant gC3 7 PosC3.K1 ⊥ ⊤ false 64 rfl⟩

/-- C3 (counterexample): a mate reached one ply below the root `R1` and
a mate reached three plies below the root `R3` receive the same root
score `MATE_SCORE`; the magnitude is not strictly larger for the nearer
mate, so no per-ply decrement is applied. -/
theorem c3_equal_scores_for_faster_and_slower_mate :
    (minimax gC3 5 PosC3.R1 ⊥ ⊤ true (TranspositionTable.init 64)).1
        = sc MATE_SCORE
    ∧ (minimax gC3 5 PosC3.R3 ⊥ ⊤ true (TranspositionTable.init 64)).1
        = sc MATE_SCORE := by
  decide

/-- C4: on a board with exactly one queen and no minor pieces (lone
white queen plus the two kings) the code's `check_end_game` returns
`false` (it requires the global queen count to be 0 or 2), while the
claimed per-side predicate — no side has a queen, or every side with a
queen has at most one minor piece — holds. -/
theorem c4_check_end_game_global_counts :
    check_end_game b4 = false ∧ end_game_spec b4 = true := by
  decide

/-- C5 (amended): on an opening-book miss the top-level move selection
first consults the game learner's suggestion and returns it when there
is one; the alpha-beta search result is returned only when the book and
the learner both return none. -/
theorem c5_book_miss_learner_then_search {μ : Type} (search_move : μ) :
    (∀ learned_move : μ,
        next_move none (some learned_move) search_move = learned_move)
    ∧ next_move (none : Option μ) none search_move = search_move :=
  ⟨fun _ => rfl, rfl⟩

/-- C5 (counterexample): with a book miss and a learner suggestion `1`,
`next_move` returns `1`, not the search move `2`: the learner is an
intermediate move source between the book and the search. -/
theorem c5_learner_intercepts :
    next_move (none : Option ℕ) (some 1) 2 = 1 ∧ (1 : ℕ) ≠ 2 := by
  decide

/-- C7 (amended): on a non-checkmate position with no capture moves,
quiescence search with the full window returns the static evaluation,
for every depth budget `d ≥ 0`. -/
theorem c7_quiescence_stand_pat_no_captures {Pos : Type} (g : Game Pos)
    (d : Nat) (p : Pos) (h1 : g.captureMoves p = [])
    (h2 : g.isCheckmate p = false) :
    (quiescence_search g d p ⊥ ⊤).1 = sc (g.evaluate p) := by
  cases d with
  | zero =>
    unfold quiescence_search
    simp [h2]
  | succ d' =>
    unfold quiescence_search
    simp [h1, h2, qloop, not_le.mpr (sc_lt_top (g.evaluate p)),
      bot_lt_sc (g.evaluate p)]

theorem c7_quiescence_stand_pat_witness :
    gC1.captureMoves PosC1.B = [] ∧ gC1.isCheckmate PosC1.B = false
    ∧ (quiescence_search gC1 3 PosC1.B ⊥ ⊤).1 = sc (gC1.evaluate PosC1.B) :=
  ⟨rfl, rfl, c7_quiescence_stand_pat_no_captures gC1 3 PosC1.B rfl rfl⟩

/-- C7 (counterexample): a checkmated position has no legal captures,
yet quiescence search returns the signed mate score
(`-MATE_SCORE` with White to move), not the static evaluation. -/
theorem c7_checkmate_not_stand_pat :
    gC7.captureMoves () = []
    ∧ (quiescence_search gC7 4 () ⊥ ⊤).1 = sc (-MATE_SCORE)
    ∧ sc (-MATE_SCORE) ≠ sc (gC7.evaluate ()) := by
  decide

/-- C9: when the book file is missing (`os.path.exists` false) or
unreadable (`open_reader` raises), the constructor returns a book (the
exception is caught, nothing fatal propagates) with `enabled = False`,
and every subsequent `get_book_move` call returns none, whatever the
board's entries, random draws and options are. -/
theorem c9_book_disabled_on_missing_file {R μ : Type} (fs : BookFS R)
    (h : fs.pathExists = false ∨ fs.openReader = none) :
    (OpeningBook.init fs).enabled = false
    ∧ ∀ (find_all : R → Option (List (μ × Nat))) (choice rand_index : Nat)
        (weighted : Bool) (min_weight : Nat),
        (OpeningBook.init fs).get_book_move find_all choice rand_index
          weighted min_weight = none := by
  have he : (OpeningBook.init fs).enabled = false := by
    unfold OpeningBook.init
    rcases h with h | h
    · simp [h]
    · by_cases hp : fs.pathExists
      · simp [hp, h]
      · simp [hp]
  refine ⟨he, fun find_all choice rand_index weighted min_weight => ?_⟩
  unfold OpeningBook.get_book_move
  simp [he]

theorem c9_book_disabled_witness :
    (OpeningBook.init (⟨false, none⟩ : BookFS Unit)).enabled = false
    ∧ (OpeningBook.init (⟨false, none⟩ : BookFS Unit)).get_book_move
        (fun _ => some ([(3, 20)] : List (ℕ × ℕ))) 0 0 true 10 = none :=
  ⟨(c9_book_disabled_on_missing_file (μ := ℕ) ⟨false, none⟩ (Or.inl rfl)).1,
   (c9_book_disabled_on_missing_file (μ := ℕ) ⟨false, none⟩ (Or.inl rfl)).2
     (fun _ => some [(3, 20)]) 0 0 true 10⟩

theorem assocGet_assocSet_self (k : Nat) (e : TableEntry Pos) :
    ∀ l : List (Nat × TableEntry Pos), assocGet k (assocSet k e l) = some e
  | [] => by simp [assocSet, assocGet]
  | (k', e') :: rest => by
    by_cases h : k' = k
    · simp [assocSet, assocGet, h]
    · simp [assocSet, assocGet, h, assocGet_assocSet_self k e rest]

theorem store_shape (g : Game Pos) (t : TranspositionTable Pos)
    (board : Pos) (d : Nat) (s : Score) (nt : NodeType) (m : Option Pos) :
    ∃ l, (t.store g board d s nt m).table
        = assocSet (g.key board) ⟨d, s, nt, m, t.current_age⟩ l
      ∧ (t.store g board d s nt m).current_age = t.current_age := by
  unfold TranspositionTable.store
  by_cases h : t.max_entries ≤ t.table.length
  · rw [if_pos h]
    cases hmp : minAgePair t.table with
    | none => exact ⟨t.table, rfl, rfl⟩
    | some x => exact ⟨assocDel x.1 t.table, rfl, rfl⟩
  · rw [if_neg h]
    exact ⟨t.table, rfl, rfl⟩

/-- C6: storing an `EXACT` entry for a board at depth `d` with score
`s` and then immediately looking the same board up returns the entry,
and the `minimax` lookup gate accepts it for any requested depth ≤ `d`,
returning exactly the stored score `s` (for any current window). -/
theorem c6_tt_exact_roundtrip (g : Game Pos)
    (t : TranspositionTable Pos) (board : Pos) (d : Nat) (s : Score)
    (m : Option Pos) (dreq : Nat) (alpha beta : Score) (h : dreq ≤ d) :
    tt_probe ((t.store g board d s NodeType.EXACT m).lookup g board).1
      dreq alpha beta = some s := by
  obtain ⟨l, htab, hage⟩ := store_shape g t board d s NodeType.EXACT m
  unfold TranspositionTable.lookup
  rw [htab]
  simp [assocGet_assocSet_self, hage, tt_probe, h]

theorem c6_tt_exact_roundtrip_witness :
    (2 : Nat) ≤ 3
    ∧ tt_probe (((TranspositionTable.init 1).store unitGame () 3 (sc 7)
        NodeType.EXACT none).lookup unitGame ()).1 2 ⊥ ⊤ = some (sc 7) :=
  ⟨by decide, c6_tt_exact_roundtrip unitGame (TranspositionTable.init 1) () 3
    (sc 7) none 2 ⊥ ⊤ (by decide)⟩

theorem length_assocSet_le (k : Nat) (e : TableEntry Pos) :
    ∀ l : List (Nat × TableEntry Pos), (assocSet k e l).length ≤ l.length + 1
  | [] => by simp [assocSet]
  | (k', e') :: rest => by
    by_cases h : k' = k
    · simp [assocSet, h]
    · simp only [assocSet, if_neg h, List.length_cons]
      exact Nat.succ_le_succ (length_assocSet_le k e rest)

theorem length_assocSet_of_get (k : Nat) (e : TableEntry Pos) :
    ∀ l : List (Nat × TableEntry Pos), (assocGet k l).isSome →
      (assocSet k e l).length = l.length
  | [] => by simp [assocGet]
  | (k', e') :: rest => by
    by_cases h : k' = k
    · intro _
      simp [assocSet, h]
    · intro hs
      simp only [assocGet, if_neg h] at hs
      simp only [assocSet, if_neg h, List.length_cons,
        length_assocSet_of_get k e rest hs]

theorem minAgePair_mem :
    ∀ {l : List (Nat × TableEntry Pos)} {x}, minAgePair l = some x → x ∈ l
  | [], x, h => by simp [minAgePair] at h
  | y :: rest, x, h => by
    cases hmp : minAgePair rest with
    | none =>
      simp only [minAgePair, hmp, Option.some.injEq] at h
      rw [← h]
      exact List.mem_cons_self _ _
    | some z =>
      simp only [minAgePair, hmp] at h
      by_cases hle : y.2.age ≤ z.2.age
      · rw [if_pos hle, Option.some.injEq] at h
        rw [← h]
        exact List.mem_cons_self _ _
      · rw [if_neg hle, Option.some.injEq] at h
        rw [← h]
        exact List.mem_cons_of_mem _ (minAgePair_mem hmp)

theorem minAgePair_eq_none :
    ∀ {l : List (Nat × TableEntry Pos)}, minAgePair l = none → l = []
  | [], _ => rfl
  | y :: rest, h => by
    cases hmp : minAgePair rest with
    | none => simp [minAgePair, hmp] at h
    | some z =>
      simp only [minAgePair, hmp] at h
      by_cases hle : y.2.age ≤ z.2.age
      · rw [if_pos hle] at h
        cases h
      · rw [if_neg hle] at h
        cases h

theorem minAgePair_min :
    ∀ {l : List (Nat × TableEntry Pos)} {x}, minAgePair l = some x →
      ∀ y ∈ l, x.2.age ≤ y.2.age
  | [], x, h => by simp [minAgePair] at h
  | y :: rest, x, h => by
    cases hmp : minAgePair rest with
    | none =>
      simp only [minAgePair, hmp, Option.some.injEq] at h
      intro z hz
      rw [← h]
      rcases List.mem_cons.mp hz with hz | hz
      · rw [hz]
      · rw [minAgePair_eq_none hmp] at hz
        cases hz
    | some w =>
      simp only [minAgePair, hmp] at h
      by_cases hle : y.2.age ≤ w.2.age
      · rw [if_pos hle, Option.some.injEq] at h
        intro z hz
        rw [← h]
        rcases List.mem_cons.mp hz with hz | hz
        · rw [hz]
        · exact le_trans hle (minAgePair_min hmp z hz)
      · rw [if_neg hle, Option.some.injEq] at h
        intro z hz
        rw [← h]
        rcases List.mem_cons.mp hz with hz | hz
        · rw [hz]
          exact le_of_lt (lt_of_not_le hle)
        · exact minAgePair_min hmp z hz

theorem length_assocDel_lt (k : Nat) :
    ∀ {l : List (Nat × TableEntry Pos)}, (∃ e, (k, e) ∈ l) →
      (assocDel k l).length < l.length
  | [], h => by
    rcases h with ⟨e, he⟩
    cases he
  | (k', e') :: rest, h => by
    by_cases hk : k' = k
    · simp only [assocDel, if_pos hk, List.length_cons]
      exact Nat.lt_succ_self _
    · rcases h with ⟨e, he⟩
      rcases List.mem_cons.mp he with he | he
      · cases he
        exact absurd rfl hk
      · simp only [assocDel, if_neg hk, List.length_cons]
        exact Nat.succ_lt_succ (length_assocDel_lt k ⟨e, he⟩)

theorem store_table_length (g : Game Pos) (t : TranspositionTable Pos)
    (board : Pos) (d : Nat) (s : Score) (nt : NodeType) (m : Option Pos)
    (hmax : 1 ≤ t.max_entries) (hlen : t.table.length ≤ t.max_entries) :
    (t.store g board d s nt m).table.length ≤ t.max_entries := by
  unfold TranspositionTable.store
  by_cases h : t.max_entries ≤ t.table.length
  · rw [if_pos h]
    cases hmp : minAgePair t.table with
    | none =>
      have hnil : t.table = [] := minAgePair_eq_none hmp
      simp only [hnil]
      calc (assocSet (g.key board) _ ([] : List (Nat × TableEntry Pos))).length
          ≤ 0 + 1 := by
            simpa using length_assocSet_le (g.key board) _ []
        _ ≤ t.max_entries := hmax
    | some x =>
      have hx : x ∈ t.table := minAgePair_mem hmp
      have hdel : (assocDel x.1 t.table).length < t.table.length :=
        length_assocDel_lt x.1 ⟨x.2, by simpa using hx⟩
      calc (assocSet (g.key board) _ (assocDel x.1 t.table)).length
          ≤ (assocDel x.1 t.table).length + 1 := length_assocSet_le _ _ _
        _ ≤ t.table.length := hdel
        _ ≤ t.max_entries := hlen
  · rw [if_neg h]
    have hlt : t.table.length + 1 ≤ t.max_entries := Nat.lt_of_not_le h
    exact le_trans (length_assocSet_le _ _ _) hlt

theorem store_max_entries (g : Game Pos) (t : TranspositionTable Pos)
    (board : Pos) (d : Nat) (s : Score) (nt : NodeType) (m : Option Pos) :
    (t.store g board d s nt m).max_entries = t.max_entries := by
  unfold TranspositionTable.store
  by_cases h : t.max_entries ≤ t.table.length
  · rw [if_pos h]
    cases hmp : minAgePair t.table with
    | none => rfl
    | some x => rfl
  · rw [if_neg h]

theorem lookup_table (g : Game Pos) (t : TranspositionTable Pos) (board : Pos) :
    ((t.lookup g board).2).table.length = t.table.length
    ∧ ((t.lookup g board).2).max_entries = t.max_entries := by
  simp only [TranspositionTable.lookup]
  cases hg : assocGet (g.key board) t.table with
  | none => exact ⟨rfl, rfl⟩
  | some e =>
    refine ⟨?_, rfl⟩
    have hget : (assocGet (g.key board) t.table).isSome := by rw [hg]; rfl
    exact length_assocSet_of_get (g.key board) _ t.table hget

theorem runOps_step (g : Game Pos) (t : TranspositionTable Pos)
    (op : TTOp Pos) (ops : List (TTOp Pos)) (hmax : 1 ≤ t.max_entries)
    (hlen : t.table.length ≤ t.max_entries) :
    ∃ t', runOps g t (op :: ops) = runOps g t' ops
      ∧ t'.max_entries = t.max_entries ∧ t'.table.length ≤ t.max_entries := by
  cases op with
  | storeOp b d s nt m =>
    exact ⟨t.store g b d s nt m, rfl, store_max_entries g t b d s nt m,
      store_table_length g t b d s nt m hmax hlen⟩
  | lookupOp b =>
    refine ⟨(t.lookup g b).2, rfl, (lookup_table g t b).2, ?_⟩
    rw [(lookup_table g t b).1]
    exact hlen
  | newSearchOp => exact ⟨t.new_search, rfl, rfl, hlen⟩
  | clearOp => exact ⟨t.clear, rfl, rfl, Nat.zero_le _⟩

theorem runOps_length_le (g : Game Pos) :
    ∀ (ops : List (TTOp Pos)) (t : TranspositionTable Pos),
      1 ≤ t.max_entries → t.table.length ≤ t.max_entries →
      (runOps g t ops).table.length ≤ t.max_entries
      ∧ (runOps g t ops).max_entries = t.max_entries
  | [], t, _, hlen => ⟨hlen, rfl⟩
  | op :: ops, t, hmax, hlen => by
    obtain ⟨t', hrun, hm, hl⟩ := runOps_step g t op ops hmax hlen
    have ih := runOps_length_le g ops t' (hm ▸ hmax) (hm ▸ hl)
    rw [hrun]
    exact ⟨le_of_le_of_eq ih.1 hm, ih.2.trans hm⟩

/-- C10: starting from a freshly constructed table, after any sequence
of `store`, `lookup`, `new_search` and `clear` operations the number of
entries never exceeds `max_entries = size_mb * 1024 * 1024 / 32`, and
whenever a store happens with the table at capacity it first evicts
(exactly) the entry with the smallest age, then inserts the new
entry. -/
theorem c10_table_capacity_invariant (g : Game Pos) (size_mb : Nat)
    (ops : List (TTOp Pos)) (hmax : 1 ≤ size_mb * 1024 * 1024 / 32) :
    (runOps g (TranspositionTable.init size_mb) ops).table.length
        ≤ size_mb * 1024 * 1024 / 32
    ∧ ∀ (b : Pos) (d : Nat) (s : Score) (nt : NodeType) (m : Option Pos),
        size_mb * 1024 * 1024 / 32
            ≤ (runOps g (TranspositionTable.init size_mb) ops).table.length →
        ∃ k e, minAgePair (runOps g (TranspositionTable.init size_mb) ops).table
              = some (k, e)
          ∧ (∀ y ∈ (runOps g (TranspositionTable.init size_mb) ops).table,
              e.age ≤ y.2.age)
          ∧ ((runOps g (TranspositionTable.init size_mb) ops).store g b d s nt
                m).table
              = assocSet (g.key b)
                  ⟨d, s, nt, m,
                    (runOps g (TranspositionTable.init size_mb) ops).current_age⟩
                  (assocDel k
                    (runOps g (TranspositionTable.init size_mb) ops).table) := by
  have hinit := runOps_length_le g ops (TranspositionTable.init size_mb) hmax
    (Nat.zero_le _)
  refine ⟨hinit.1, fun b d s nt m hcap => ?_⟩
  set t := runOps g (TranspositionTable.init size_mb) ops with ht
  have hm : t.max_entries = size_mb * 1024 * 1024 / 32 := hinit.2
  cases hmp : minAgePair t.table with
  | none =>
    have hnil : t.table = [] := minAgePair_eq_none hmp
    rw [hnil] at hcap
    simp only [List.length_nil] at hcap
    omega
  | some x =>
    refine ⟨x.1, x.2, by simp [hmp], minAgePair_min hmp, ?_⟩
    show (t.store g b d s nt m).table = _
    unfold TranspositionTable.store
    rw [if_pos (by rw [hm]; exact hcap), hmp]

theorem c10_capacity_witness :
    (1 : Nat) ≤ 1 * 1024 * 1024 / 32
    ∧ (runOps unitGame (TranspositionTable.init 1)
        [TTOp.storeOp () 1 (sc 5) NodeType.EXACT none]).table.length
        ≤ 1 * 1024 * 1024 / 32 :=
  ⟨by decide, (c10_table_capacity_invariant unitGame 1
    [TTOp.storeOp () 1 (sc 5) NodeType.EXACT none] (by decide)).1⟩

theorem keyedMoves_spec (board : ChessBoard) (eg : Bool) :
    ∀ (ms : List ChessMove) (ks : List (ChessMove × Score)),
      keyedMoves board eg ms = some ks →
      ∀ p ∈ ks, move_value board p.1 eg = some p.2
  | [], ks, h => by
    simp only [keyedMoves, Option.some.injEq] at h
    intro p hp
    rw [← h] at hp
    cases hp
  | m :: ms, ks, h => by
    cases hmv : move_value board m eg with
    | none => simp [keyedMoves, hmv] at h
    | some v =>
      cases hrest : keyedMoves board eg ms with
      | none => simp [keyedMoves, hmv, hrest] at h
      | some rest =>
        simp only [keyedMoves, hmv, hrest, Option.some.injEq] at h
        intro p hp
        rw [← h] at hp
        rcases List.mem_cons.mp hp with hp | hp
        · rw [hp]
          exact hmv
        · exact keyedMoves_spec board eg ms rest hrest p hp

theorem move_value_promo_key (board : ChessBoard) (m : ChessMove) (eg : Bool)
    (v : Score) (hp : m.promotion.isSome = true)
    (h : move_value board m eg = some v) :
    v = (if board.turn = false then (⊥ : Score) else ⊤) := by
  unfold move_value at h
  rw [if_pos hp, Option.some.injEq] at h
  exact h.symm

theorem move_value_finite_of_not_promo (board : ChessBoard) (m : ChessMove)
    (eg : Bool) (v : Score) (hp : m.promotion.isSome = false)
    (h : move_value board m eg = some v) : ∃ n : ℤ, v = sc n := by
  unfold move_value at h
  rw [if_neg (by simp [hp])] at h
  cases hpc : board.piece_at m.from_square with
  | none =>
    rw [hpc] at h
    simp at h
  | some piece =>
    rw [hpc] at h
    by_cases hc : board.is_capture m
    · cases hec : evaluate_capture board m with
      | none =>
        rw [hec] at h
        simp [hc] at h
      | some cv =>
        rw [hec] at h
        simp [hc] at h
        exact ⟨_, h.symm⟩
    · simp [hc] at h
      exact ⟨_, h.symm⟩

/-- C8: whenever the legal moves contain a promotion, the ordered move
list returned by `get_ordered_moves` places every promotion move before
every non-promotion move: no non-promotion precedes a promotion. -/
theorem c8_promotions_first (board : ChessBoard) (l : List ChessMove)
    (hl : get_ordered_moves board = some l)
    (_hpromo : ∃ m ∈ board.legal_moves, m.promotion.isSome) :
    l.Pairwise (fun m₁ m₂ => m₂.promotion.isSome → m₁.promotion.isSome) := by
  simp only [get_ordered_moves] at hl
  cases hk : keyedMoves board (check_end_game board) board.legal_moves with
  | none => rw [hk] at hl; cases hl
  | some keyed =>
    rw [hk, Option.some.injEq] at hl
    rw [← hl, List.pairwise_map]
    have hsorted : List.Sorted (orderRel board.turn)
        (List.insertionSort (orderRel board.turn) keyed) :=
      List.sorted_insertionSort (orderRel board.turn) keyed
    have hkeys := keyedMoves_spec board (check_end_game board)
      board.legal_moves keyed hk
    refine List.Pairwise.imp_of_mem ?_ hsorted
    intro a b ha hb hrel hbp
    have ha' : a ∈ keyed :=
      (List.perm_insertionSort (orderRel board.turn) keyed).mem_iff.mp ha
    have hb' : b ∈ keyed :=
      (List.perm_insertionSort (orderRel board.turn) keyed).mem_iff.mp hb
    have hbv := move_value_promo_key board b.1 (check_end_game board) b.2 hbp
      (hkeys b hb')
    by_cases hap : a.1.promotion.isSome
    · exact hap
    · exfalso
      obtain ⟨n, han⟩ := move_value_finite_of_not_promo board a.1
        (check_end_game board) a.2 (Bool.not_eq_true _ ▸ hap : a.1.promotion.isSome = false)
        (hkeys a ha')
      cases hturn : board.turn with
      | true =>
        have hrel' : b.2 ≤ a.2 := by
          have := hrel
          rw [hturn] at this
          exact this
        have htop : b.2 = ⊤ := by rw [hbv, hturn]; rfl
        rw [htop] at hrel'
        have ha2 : a.2 = ⊤ := top_le_iff.mp hrel'
        rw [han] at ha2
        exact sc_ne_top n ha2
      | false =>
        have hrel' : a.2 ≤ b.2 := by
          have := hrel
          rw [hturn] at this
          exact this
        have hbot : b.2 = ⊥ := by rw [hbv, hturn]; rfl
        rw [hbot] at hrel'
        have ha2 : a.2 = ⊥ := le_bot_iff.mp hrel'
        rw [han] at ha2
        exact sc_ne_bot n ha2

theorem c8_promotions_first_witness :
    get_ordered_moves bW = some [mvPromo, mvQuiet]
    ∧ ([mvPromo, mvQuiet].Pairwise
        (fun m₁ m₂ => m₂.promotion.isSome → m₁.promotion.isSome)) :=
  ⟨by decide, c8_promotions_first bW [mvPromo, mvQuiet] (by decide)
    ⟨mvPromo, by decide, by decide⟩⟩

/-- Window relation of fail-soft alpha-beta: `r` is the value the
pruned search returned under window `(α, β)` and `v` the true unpruned
value.  Inside the window they agree; a fail-low result is an upper
bound on `v`; a fail-high result a lower bound. -/
def approx (a b r v : Score) : Prop :=
  (r ≤ a → v ≤ r) ∧ (b ≤ r → r ≤ v) ∧ (a < r → r < b → r = v)

theorem approx_of_eq {a b r v : Score} (h : r = v) : approx a b r v :=
  ⟨fun _ => le_of_eq h.symm, fun _ => le_of_eq h, fun _ _ => h⟩

theorem le_abMaxLoop (rec : Pos → Score → Score) (beta : Score) :
    ∀ (cs : List Pos) (alpha best : Score),
      best ≤ abMaxLoop rec beta cs alpha best
  | [], _, best => le_refl best
  | c :: cs, alpha, best => by
    simp only [abMaxLoop]
    by_cases h : beta ≤ max alpha (rec c alpha)
    · rw [if_pos h]
      exact le_max_left _ _
    · rw [if_neg h]
      exact le_trans (le_max_left best (rec c alpha))
        (le_abMaxLoop rec beta cs _ _)

theorem abMinLoop_le (rec : Pos → Score → Score) (alpha : Score) :
    ∀ (cs : List Pos) (beta best : Score),
      abMinLoop rec alpha cs beta best ≤ best
  | [], _, best => le_refl best
  | c :: cs, beta, best => by
    simp only [abMinLoop]
    by_cases h : min beta (rec c beta) ≤ alpha
    · rw [if_pos h]
      exact min_le_left _ _
    · rw [if_neg h]
      exact le_trans (abMinLoop_le rec alpha cs _ _)
        (min_le_left best (rec c beta))

theorem abMaxLoop_approx (rec : Pos → Score → Score) (vf : Pos → Score)
    (beta : Score) :
    ∀ (cs : List Pos) (alpha best : Score), alpha < beta →
      (∀ c ∈ cs, ∀ a, a < beta → approx a beta (rec c a) (vf c)) →
      approx alpha beta (abMaxLoop rec beta cs alpha best)
        (max best (maxChild vf cs))
  | [], alpha, best, _, _ => by
    simp only [abMaxLoop, maxChild]
    rw [max_eq_left bot_le]
    exact approx_of_eq rfl
  | c :: cs, alpha, best, hab, hrec => by
    simp only [abMaxLoop, maxChild]
    have hc : approx alpha beta (rec c alpha) (vf c) :=
      hrec c (List.mem_cons_self c cs) alpha hab
    set s := rec c alpha with hs
    set W := maxChild vf cs with hW
    by_cases hbr : beta ≤ max alpha s
    · rw [if_pos hbr]
      have hbs : beta ≤ s := by
        rcases le_max_iff.mp hbr with h | h
        · exact absurd h (not_le.mpr hab)
        · exact h
      have hsv : s ≤ vf c := hc.2.1 hbs
      refine ⟨?_, ?_, ?_⟩
      · intro hle
        exfalso
        exact not_le.mpr (lt_of_lt_of_le hab hbs)
          (le_trans (le_max_right best s) hle)
      · intro _
        exact max_le_max (le_refl best) (le_trans hsv (le_max_left _ _))
      · intro _ hltb
        exfalso
        exact not_lt.mpr (le_trans hbs (le_max_right best s)) hltb
    · rw [if_neg hbr]
      have hab1 : max alpha s < beta := not_le.mp hbr
      have ih := abMaxLoop_approx rec vf beta cs (max alpha s) (max best s) hab1
        (fun c' hc' => hrec c' (List.mem_cons_of_mem c hc'))
      rw [← hW] at ih
      by_cases hsa : s ≤ alpha
      · -- fail-low child: vf c ≤ s, window unchanged
        have hvs : vf c ≤ s := hc.1 hsa
        rw [max_eq_left hsa] at ih ⊢
        have hLs : max (max best s) W = max (max best W) s := by
          rw [max_assoc, max_comm s W, ← max_assoc]
        have hTL : max best (max (vf c) W) ≤ max (max best s) W := by
          rw [max_assoc]
          exact max_le_max (le_refl best) (max_le_max hvs (le_refl W))
        refine ⟨?_, ?_, ?_⟩
        · intro hres
          exact le_trans hTL (ih.1 hres)
        · intro hbres
          have hresL := ih.2.1 hbres
          rw [hLs] at hresL
          rcases le_max_iff.mp hresL with h | h
          · exact le_trans h (max_le_max (le_refl best) (le_max_right (vf c) W))
          · exact absurd (le_trans h hsa)
              (not_le.mpr (lt_of_lt_of_le hab hbres))
        · intro halt hblt
          have hres := ih.2.2 halt hblt
          rw [hLs] at hres
          rcases max_choice (max best W) s with hcase | hcase
          · rw [hcase] at hres
            rw [hres, max_left_comm]
            exact (max_eq_right (le_of_lt (lt_of_le_of_lt (le_trans hvs hsa)
              (hres ▸ halt)))).symm
          · exfalso
            rw [hcase] at hres
            exact absurd (le_trans (le_of_eq hres) hsa) (not_le.mpr halt)
      · -- child value inside the window: s = vf c
        have has : alpha < s := not_le.mp hsa
        have hsb : s < beta := lt_of_le_of_lt (le_max_right alpha s) hab1
        have hveq : s = vf c := hc.2.2 has hsb
        rw [max_eq_right (le_of_lt has)] at ih ⊢
        have hLT : max (max best s) W = max best (max (vf c) W) := by
          rw [max_assoc, hveq]
        have hble : max best s ≤ abMaxLoop rec beta cs s (max best s) :=
          le_abMaxLoop rec beta cs s (max best s)
        refine ⟨?_, ?_, ?_⟩
        · intro hres
          exfalso
          exact not_le.mpr has (le_trans (le_trans (le_max_right best s) hble) hres)
        · intro hbres
          rw [← hLT]
          exact ih.2.1 hbres
        · intro _ hblt
          rcases lt_or_le s (abMaxLoop rec beta cs s (max best s)) with hcase | hcase
          · rw [← hLT]
            exact ih.2.2 hcase hblt
          · have hress : abMaxLoop rec beta cs s (max best s) = s :=
              le_antisymm hcase (le_trans (le_max_right best s) hble)
            have hresL := ih.1 (le_of_eq hress)
            rw [← hLT]
            refine le_antisymm ?_ ?_
            · rw [hress]
              exact le_trans (le_max_right best s) (le_max_left _ _)
            · exact hresL

theorem abMinLoop_approx (rec : Pos → Score → Score) (vf : Pos → Score)
    (alpha : Score) :
    ∀ (cs : List Pos) (beta best : Score), alpha < beta →
      (∀ c ∈ cs, ∀ b, alpha < b → approx alpha b (rec c b) (vf c)) →
      approx alpha beta (abMinLoop rec alpha cs beta best)
        (min best (minChild vf cs))
  | [], beta, best, _, _ => by
    simp only [abMinLoop, minChild]
    rw [min_eq_left le_top]
    exact approx_of_eq rfl
  | c :: cs, beta, best, hab, hrec => by
    simp only [abMinLoop, minChild]
    have hc : approx alpha beta (rec c beta) (vf c) :=
      hrec c (List.mem_cons_self c cs) beta hab
    set s := rec c beta with hs
    set W := minChild vf cs with hW
    by_cases har : min beta s ≤ alpha
    · rw [if_pos har]
      have hsa : s ≤ alpha := by
        rcases min_le_iff.mp har with h | h
        · exact absurd h (not_le.mpr hab)
        · exact h
      have hvs : vf c ≤ s := hc.1 hsa
      refine ⟨?_, ?_, ?_⟩
      · intro _
        exact min_le_min (le_refl best) (le_trans (min_le_left (vf c) W) hvs)
      · intro hbres
        exfalso
        exact absurd (le_trans (min_le_right best s) hsa)
          (not_le.mpr (lt_of_lt_of_le hab hbres))
      · intro halt _
        exfalso
        exact absurd (le_trans (min_le_right best s) hsa) (not_le.mpr halt)
    · rw [if_neg har]
      have hab1 : alpha < min beta s := not_le.mp har
      have ih := abMinLoop_approx rec vf alpha cs (min beta s) (min best s) hab1
        (fun c' hc' => hrec c' (List.mem_cons_of_mem c hc'))
      rw [← hW] at ih
      by_cases hbs : beta ≤ s
      · -- fail-high child: s ≤ vf c, window unchanged
        have hvs : s ≤ vf c := hc.2.1 hbs
        rw [min_eq_left hbs] at ih ⊢
        have hLs : min (min best s) W = min (min best W) s := by
          rw [min_assoc, min_comm s W, ← min_assoc]
        have hTL : min (min best s) W ≤ min best (min (vf c) W) := by
          rw [min_assoc]
          exact min_le_min (le_refl best) (min_le_min hvs (le_refl W))
        refine ⟨?_, ?_, ?_⟩
        · intro hres
          have hresL := ih.1 hres
          rw [hLs] at hresL
          rcases min_le_iff.mp hresL with h | h
          · exact le_trans (le_min (min_le_left best _)
              (le_trans (min_le_right best _) (min_le_right (vf c) W))) h
          · exact absurd (le_trans h hres)
              (not_le.mpr (lt_of_lt_of_le hab hbs))
        · intro hbres
          exact le_trans (ih.2.1 hbres) hTL
        · intro _ hblt
          have hres := ih.2.2 (by assumption) hblt
          rw [hLs] at hres
          rcases min_choice (min best W) s with hcase | hcase
          · rw [hcase] at hres
            rw [hres, min_left_comm]
            exact (min_eq_right (le_of_lt (lt_of_lt_of_le (hres ▸ hblt)
              (le_trans hbs hvs)))).symm
          · exfalso
            rw [hcase] at hres
            exact absurd (le_trans hbs (le_of_eq hres.symm)) (not_le.mpr hblt)
      · -- child value inside the window: s = vf c
        have hsb : s < beta := not_le.mp hbs
        have has : alpha < s := lt_of_lt_of_le hab1 (min_le_right beta s)
        have hveq : s = vf c := hc.2.2 has hsb
        rw [min_eq_right (le_of_lt hsb)] at ih ⊢
        have hLT : min (min best s) W = min best (min (vf c) W) := by
          rw [min_assoc, hveq]
        have hble : abMinLoop rec alpha cs s (min best s) ≤ min best s :=
          abMinLoop_le rec alpha cs s (min best s)
        refine ⟨?_, ?_, ?_⟩
        · intro hres
          rw [← hLT]
          exact ih.1 hres
        · intro hbres
          exfalso
          exact absurd (le_trans hble (min_le_right best s))
            (not_le.mpr (lt_of_lt_of_le hsb hbres))
        · intro halt _
          rcases lt_or_le (abMinLoop rec alpha cs s (min best s)) s with
            hcase | hcase
          · rw [← hLT]
            exact ih.2.2 halt hcase
          · have hress : abMinLoop rec alpha cs s (min best s) = s :=
              le_antisymm (le_trans hble (min_le_right best s)) hcase
            have hresL := ih.2.1 (le_of_eq hress.symm)
            rw [← hLT]
            refine le_antisymm ?_ ?_
            · exact hresL
            · rw [hress]
              exact le_trans (min_le_left _ _) (min_le_right best s)

theorem minimaxNoTT_approx (g : Game Pos) :
    ∀ (d : Nat) (p : Pos) (alpha beta : Score) (maxing : Bool),
      alpha < beta →
      approx alpha beta (minimaxNoTT g d p alpha beta maxing)
        (plain_minimax g d p maxing)
  | d, p, alpha, beta, maxing, hab => by
    unfold minimaxNoTT plain_minimax
    by_cases hcm : g.isCheckmate p
    · rw [if_pos hcm, if_pos hcm]
      exact approx_of_eq rfl
    · rw [if_neg hcm, if_neg hcm]
      by_cases hgo : g.isGameOver p
      · rw [if_pos hgo, if_pos hgo]
        exact approx_of_eq rfl
      · rw [if_neg hgo, if_neg hgo]
        cases d with
        | zero => exact approx_of_eq rfl
        | succ d' =>
          cases maxing with
          | true =>
            have h := abMaxLoop_approx
              (fun c a => minimaxNoTT g d' c a beta false)
              (fun c => plain_minimax g d' c false) beta
              (g.orderedMoves p) alpha ⊥ hab
              (fun c _ a ha => minimaxNoTT_approx g d' c a beta false ha)
            rw [max_eq_right bot_le] at h
            exact h
          | false =>
            have h := abMinLoop_approx
              (fun c b => minimaxNoTT g d' c alpha b true)
              (fun c => plain_minimax g d' c true) alpha
              (g.orderedMoves p) beta ⊤ hab
              (fun c _ b hb => minimaxNoTT_approx g d' c alpha b true hb)
            rw [min_eq_right le_top] at h
            exact h
  termination_by d _ _ _ _ _ => d

/-- C2 (amended): for every position, depth and side, the alpha-beta
pruned search with the transposition-table interaction removed, called
with the full window `(-inf, +inf)`, returns exactly the value of the
unpruned plain minimax to the same depth: pruning never changes the
returned value. -/
theorem c2_alphabeta_eq_plain_minimax (g : Game Pos) (d : Nat)
    (p : Pos) (maxing : Bool) :
    minimaxNoTT g d p ⊥ ⊤ maxing = plain_minimax g d p maxing := by
  have h := minimaxNoTT_approx g d p ⊥ ⊤ maxing bot_lt_top
  set r := minimaxNoTT g d p ⊥ ⊤ maxing with hr
  set v := plain_minimax g d p maxing with hv
  by_cases hb : r ≤ ⊥
  · have hvb : v ≤ r := h.1 hb
    have hrb : r = ⊥ := le_bot_iff.mp hb
    rw [hrb]
    exact (le_bot_iff.mp (le_trans hvb hb)).symm
  · by_cases ht : ⊤ ≤ r
    · have hrv : r ≤ v := h.2.1 ht
      have hrt : r = ⊤ := top_le_iff.mp (le_trans ht (le_refl r))
      rw [hrt]
      exact (top_le_iff.mp (le_trans ht hrv)).symm
    · exact h.2.2 (not_le.mp hb) (not_le.mp ht)

/-- C2 (counterexample): with the shared transposition table the
alpha-beta search from the full window can return a different value
than unpruned plain minimax at the same depth: on the transposition
game, `X` is first searched at remaining depth 2 and stored as an
`EXACT` depth-2 entry with score 0; when the longer line reaches `X` at
remaining depth 0 the lookup gate returns the stored 0 instead of the
static evaluation 100, and the root value becomes 0 instead of 100. -/
theorem c2_tt_changes_value :
    (minimax gC2 4 PosC2.R ⊥ ⊤ true (TranspositionTable.init 64)).1 = sc 0
    ∧ plain_minimax gC2 4 PosC2.R true = sc 100
    ∧ (minimax gC2 4 PosC2.R ⊥ ⊤ true (TranspositionTable.init 64)).1
        ≠ plain_minimax gC2 4 PosC2.R true := by
  decide

end ChessEngine
